import Mathlib

/-!
# Verification of the mdblog content pipeline

Shallow embedding of the core of `mdblog.rs` (`src/lib.rs`, `src/errors.rs`):
post loading, tag aggregation, the export/render pipeline, the watch loop
and `create_post`.  Pure data (paths, timestamps, settings) is embedded as
Lean structures; filesystem state, wall-clock time and the external template
renderer are passed in explicitly as values or total functions.

The post parser (`post.rs`) is not part of the sources; it is modelled
from the specification (see `parsePost`).
-/

set_option linter.dupNamespace false

namespace Mdblog

/-! ## Basic string and list helpers (kernel-friendly, on `List Char`) -/

/-- Split a character list at every occurrence of the separator `sep`.
`splitChar '\n'` models Rust's `str::lines`-style splitting used on post
files, `splitChar ','` models the comma split of the `tags` header. -/
def splitChar (sep : Char) : List Char → List (List Char)
  | [] => [[]]
  | c :: cs =>
    match splitChar sep cs with
    | [] => if c = sep then [[], []] else [[c]]
    | g :: gs => if c = sep then [] :: g :: gs else (c :: g) :: gs

/-- A whitespace character, as trimmed by Rust's `str::trim`. -/
def isSpaceChar (c : Char) : Bool :=
  c = ' ' || c = '\t' || c = '\r' || c = '\n'

/-- Model of Rust's `str::trim`: strip leading and trailing whitespace. -/
def trimChars (cs : List Char) : List Char :=
  ((cs.dropWhile isSpaceChar).reverse.dropWhile isSpaceChar).reverse

/-- Join character-list fragments with a separator character. -/
def joinChar (sep : Char) : List (List Char) → List Char
  | [] => []
  | [g] => g
  | g :: gs => g ++ sep :: joinChar sep gs

/-- Join strings with a separator string; models Rust's `Vec::join`
(used as `tags.join(", ")` in `create_post`). -/
def joinSep (sep : String) : List String → String
  | [] => ""
  | [s] => s
  | s :: ss => s ++ sep ++ joinSep sep ss

/-- Drop duplicate elements, keeping the first occurrence of each. -/
def dedupKeepFirst : List String → List String
  | [] => []
  | s :: ss => s :: (dedupKeepFirst ss).filter (fun t => t ≠ s)

/-! ## Timestamps

`post.rs` stores a `chrono` local datetime parsed from the `date` header
(format `%Y-%m-%d %H:%M:%S`).  We embed it as its six calendar fields;
`chrono`'s chronological order on valid datetimes is the lexicographic
order on those fields. -/

structure DateTime where
  year : Nat
  month : Nat
  day : Nat
  hour : Nat
  minute : Nat
  second : Nat
  deriving DecidableEq, Repr

/-- Boolean lexicographic order on lists of naturals. -/
def lexLe : List Nat → List Nat → Bool
  | [], _ => true
  | _ :: _, [] => false
  | a :: as, b :: bs => a < b || (a = b && lexLe as bs)

/-- The six calendar fields, most significant first. -/
def DateTime.fields (d : DateTime) : List Nat :=
  [d.year, d.month, d.day, d.hour, d.minute, d.second]

/-- Chronological (lexicographic) order on datetimes; embeds `chrono`'s
`Ord` on valid datetimes.  `Mdblog::load` sorts with
`|p1, p2| p2.datetime().cmp(&p1.datetime())`, i.e. descending in this
order. -/
def DateTime.leb (a b : DateTime) : Bool :=
  lexLe a.fields b.fields

theorem lexLe_refl : ∀ as, lexLe as as = true
  | [] => rfl
  | a :: as => by simp [lexLe, lexLe_refl as]

theorem lexLe_total : ∀ as bs, (lexLe as bs || lexLe bs as) = true
  | [], _ => by simp [lexLe]
  | _ :: _, [] => by simp [lexLe]
  | a :: as, b :: bs => by
    simp only [lexLe, Bool.or_eq_true, decide_eq_true_eq, Bool.and_eq_true]
    rcases Nat.lt_trichotomy a b with h | h | h
    · exact Or.inl (Or.inl h)
    · subst h
      rcases Bool.or_eq_true _ _ |>.mp (lexLe_total as bs) with h' | h'
      · exact Or.inl (Or.inr ⟨rfl, h'⟩)
      · exact Or.inr (Or.inr ⟨rfl, h'⟩)
    · exact Or.inr (Or.inl h)

theorem lexLe_trans : ∀ as bs cs, lexLe as bs = true → lexLe bs cs = true →
    lexLe as cs = true
  | [], _, _, _, _ => rfl
  | a :: as, b :: bs, [], _, h2 => by simp [lexLe] at h2
  | a :: as, [], c :: cs, h1, _ => by simp [lexLe] at h1
  | a :: as, b :: bs, c :: cs, h1, h2 => by
    simp only [lexLe, Bool.or_eq_true, decide_eq_true_eq, Bool.and_eq_true] at *
    rcases h1 with h1 | ⟨rfl, h1⟩
    · rcases h2 with h2 | ⟨rfl, h2⟩
      · exact Or.inl (Nat.lt_trans h1 h2)
      · exact Or.inl h1
    · rcases h2 with h2 | ⟨rfl, h2⟩
      · exact Or.inl h2
      · exact Or.inr ⟨rfl, lexLe_trans as bs cs h1 h2⟩

theorem DateTime.leb_total (a b : DateTime) : (a.leb b || b.leb a) = true :=
  lexLe_total a.fields b.fields

theorem DateTime.leb_trans {a b c : DateTime} (h1 : a.leb b = true)
    (h2 : b.leb c = true) : a.leb c = true :=
  lexLe_trans a.fields b.fields c.fields h1 h2

theorem DateTime.leb_refl (a : DateTime) : a.leb a = true :=
  lexLe_refl a.fields

/-- Zero-pad a natural to two digits, as `chrono`'s `%m`/`%d`/`%H`/`%M`/`%S`. -/
def pad2 (n : Nat) : String :=
  if n < 10 then "0" ++ toString n else toString n

/-- Zero-pad a natural to four digits, as `chrono`'s `%Y` (for years < 10000). -/
def pad4 (n : Nat) : String :=
  if n < 10 then "000" ++ toString n
  else if n < 100 then "00" ++ toString n
  else if n < 1000 then "0" ++ toString n
  else toString n

/-- `datetime.format("%Y-%m-%d %H:%M:%S")`, used by `render_post` and
`create_post` in `src/lib.rs`. -/
def formatDateTime (d : DateTime) : String :=
  pad4 d.year ++ "-" ++ pad2 d.month ++ "-" ++ pad2 d.day ++ " " ++
    pad2 d.hour ++ ":" ++ pad2 d.minute ++ ":" ++ pad2 d.second

/-- Decimal value of an ASCII digit. -/
def digitVal (c : Char) : Option Nat :=
  if c.isDigit then some (c.toNat - 48) else none

/-- Parse a `%Y-%m-%d %H:%M:%S` timestamp (19 characters, fixed layout).
Modelled from the spec: `post.rs` is not under `src/`; the spec fixes the
`date` header format to `YYYY-MM-DD HH:MM:SS`.  Field-range validation is
not modelled. -/
def parseDateTime (s : String) : Option DateTime :=
  match s.data with
  | [y1, y2, y3, y4, '-', m1, m2, '-', d1, d2, ' ',
     h1, h2, ':', n1, n2, ':', s1, s2] => do
    let a1 ← digitVal y1
    let a2 ← digitVal y2
    let a3 ← digitVal y3
    let a4 ← digitVal y4
    let b1 ← digitVal m1
    let b2 ← digitVal m2
    let c1 ← digitVal d1
    let c2 ← digitVal d2
    let e1 ← digitVal h1
    let e2 ← digitVal h2
    let f1 ← digitVal n1
    let f2 ← digitVal n2
    let g1 ← digitVal s1
    let g2 ← digitVal s2
    pure ⟨a1 * 1000 + a2 * 100 + a3 * 10 + a4, b1 * 10 + b2, c1 * 10 + c2,
          e1 * 10 + e2, f1 * 10 + f2, g1 * 10 + g2⟩
  | _ => none

/-! ## Paths

Paths are embedded as strings with `/` separators.  The helpers below model
the `std::path::Path` operations `lib.rs` relies on (`is_relative`,
`file_name`, `file_stem`, `extension`, `join`, `with_extension`). -/

/-- Normal path components: split on `/`, dropping empty and `.` components
(Rust's `Components` normalization). -/
def pathComponents (p : String) : List String :=
  ((splitChar '/' p.data).map (fun cs => String.mk cs)).filter
    (fun c => c ≠ "" && c ≠ ".")

/-- `Path::is_absolute` (Unix): the path starts with `/`. -/
def pathIsAbsolute (p : String) : Bool :=
  match p.data with
  | '/' :: _ => true
  | _ => false

/-- `Path::is_relative`. -/
def pathIsRelative (p : String) : Bool :=
  !pathIsAbsolute p

/-- `Path::file_name`: the last normal component, `none` for an empty path
or one ending in `..`. -/
def fileName (p : String) : Option String :=
  match (pathComponents p).getLast? with
  | none => none
  | some c => if c = ".." then none else some c

/-- Split a file name at its last `.`, following Rust's rule: no embedded
`.`, or a `.` only at position 0, means no extension.  Returns
`(file_stem, extension)`. -/
def splitExt (f : String) : String × Option String :=
  match (splitChar '.' (f.data.drop 1)).getLast? with
  | none => (f, none)
  | some ext =>
    if (splitChar '.' (f.data.drop 1)).length = 1 then (f, none)
    else (String.mk (f.data.take (f.data.length - ext.length - 1)),
          some (String.mk ext))

/-- `Path::file_stem`. -/
def fileStem (p : String) : Option String :=
  (fileName p).map (fun f => (splitExt f).1)

/-- `Path::extension`. -/
def pathExtension (p : String) : Option String :=
  (fileName p).bind (fun f => (splitExt f).2)

/-- `Path::join`: appending an absolute path replaces the base. -/
def joinPath (a b : String) : String :=
  if pathIsAbsolute b then b
  else if a = "" then b
  else if a.data.getLast? = some '/' then a ++ b
  else a ++ "/" ++ b

/-- `Path::with_extension`: replace (or add) the extension of the file
name.  The result is rendered with normalized components. -/
def withExtension (p ext : String) : String :=
  match fileName p with
  | none => p
  | some f =>
    (if pathIsAbsolute p then "/" else "") ++
      joinSep "/" ((pathComponents p).dropLast ++ [(splitExt f).1 ++ "." ++ ext])

/-! ## Errors

From `src/errors.rs`, together with the `PostPathInvaild`, `PostPathExisted`
and `ThemeInUse` variants that `src/lib.rs` constructs (the enum in the
checked-in `errors.rs` predates them).  Error payloads carried by external
library errors are embedded as description strings. -/

inductive Error where
  | Io (msg : String)
  | IntParse (msg : String)
  | AddrParse (msg : String)
  | Config (msg : String)
  | Template (msg : String)
  | Hyper (msg : String)
  | Argument (msg : String)
  | RootDirExisted (path : String)
  | ThemeNotFound (name : String)
  | ThemeInUse (name : String)
  | PostHead (path : String)
  | PostNoBody (path : String)
  | PostPathInvaild (path : String)
  | PostPathExisted (path : String)
  deriving DecidableEq, Repr

/-! ## Post model

`post.rs` is not under `src/`; the structure and its parser are modelled
from the spec (§3 "Post", §4.1 "Post Model"). -/

/-- Modelled from the spec: one parsed post.  `path` is the source path
relative to the blog root (e.g. `posts/hello.md`); `content` holds the body
(markdown→HTML conversion is an excluded external collaborator, so the body
is kept as is). -/
structure Post where
  path : String
  title : String
  datetime : DateTime
  tags : List String
  hidden : Bool
  content : String
  deriving DecidableEq, Repr

/-- `Post::dest`: the output path, `path` with the extension replaced by
`html` (spec §3: "dest: output path, mirroring source_path with extension
replaced by .html"). -/
def Post.dest (p : Post) : String :=
  withExtension p.path "html"

/-- `Post::is_hidden`. -/
def Post.is_hidden (p : Post) : Bool :=
  p.hidden

/-- The sentinel datetime used when a post has no `date` header (spec §4.1:
"absence defaults to an implementation-chosen sentinel").  We pick the Unix
epoch. -/
def epochDateTime : DateTime :=
  ⟨1970, 1, 1, 0, 0, 0⟩

/-- Modelled from the spec: parse one `key: value` header line, failing with
the head-format error if the line has no `:` (spec §4.1: "Fails with
PostHeadFormatError if any header line does not match key: value").  The
value is everything after the first `:`, both sides trimmed. -/
def parseHeaderLine (path : String) (line : List Char) :
    Except Error (String × String) :=
  match splitChar ':' line with
  | key :: rest :: more =>
    .ok (String.mk (trimChars key),
         String.mk (trimChars (joinChar ':' (rest :: more))))
  | _ => .error (.PostHead path)

/-- First value recorded for a header key. -/
def headerValue (key : String) (kvs : List (String × String)) : Option String :=
  (kvs.find? (fun kv => kv.1 = key)).map (fun kv => kv.2)

/-- Modelled from the spec: `Post::load` of the missing `post.rs`.  Parsing
splits the file at the first blank line into a `key: value` header block and
a body (spec §4.1); any malformed header line is a `PostHead` error, an
empty body is a `PostNoBody` error.  `tags` is split on commas, trimmed,
empties dropped, duplicates dropped (spec §3: "ordered set"); `date` uses
the fixed `%Y-%m-%d %H:%M:%S` format, defaulting to the sentinel; `hidden`
is the boolean-like header; `title` falls back to the file stem. -/
def parsePost (path raw : String) : Except Error Post :=
  let lines := splitChar '\n' raw.data
  let headLines := lines.takeWhile (fun l => trimChars l ≠ [])
  let bodyLines := (lines.dropWhile (fun l => trimChars l ≠ [])).drop 1
  match headLines.mapM (parseHeaderLine path) with
  | .error e => .error e
  | .ok kvs =>
    let body := joinChar '\n' bodyLines
    if trimChars body = [] then .error (.PostNoBody path)
    else
      .ok { path := path
            title := (headerValue "title" kvs).getD ((fileStem path).getD "")
            datetime := match headerValue "date" kvs with
              | some v => (parseDateTime v).getD epochDateTime
              | none => epochDateTime
            tags := match headerValue "tags" kvs with
              | some v =>
                dedupKeepFirst
                  (((splitChar ',' v.data).map trimChars).filter
                      (fun g => g ≠ []) |>.map (fun g => String.mk g))
              | none => []
            hidden := match headerValue "hidden" kvs with
              | some v => v = "true"
              | none => false
            content := String.mk body }

/-! ## Tag index

`Mdblog.tags` is a `BTreeMap<String, Vec<Rc<Post>>>`; we embed it as an
association list whose keys are kept strictly sorted (the `BTreeMap`
invariant), with `Rc` sharing flattened into plain values. -/

/-- The tag index: tag name → posts carrying the tag. -/
abbrev Tags := List (String × List Post)

/-- `BTreeMap::get`. -/
def lookupTag (t : String) : Tags → Option (List Post)
  | [] => none
  | (k, l) :: rest => if k = t then some l else lookupTag t rest

/-- Strict lexicographic comparison of character lists (the byte order of
Rust's `String: Ord`; UTF-8 byte order equals codepoint order). -/
def charLtb : List Char → List Char → Bool
  | [], [] => false
  | [], _ :: _ => true
  | _ :: _, [] => false
  | a :: as, b :: bs => a < b || (a = b && charLtb as bs)

theorem charLtb_iff : ∀ (as bs : List Char),
    charLtb as bs = true ↔ List.Lex (· < ·) as bs
  | [], [] => by
    constructor
    · intro h
      exact absurd h (by simp [charLtb])
    · intro h
      cases h
  | [], b :: bs => by
    simp only [charLtb, true_iff]
    exact List.Lex.nil
  | a :: as, [] => by
    constructor
    · intro h
      exact absurd h (by simp [charLtb])
    · intro h
      cases h
  | a :: as, b :: bs => by
    simp only [charLtb, Bool.or_eq_true, Bool.and_eq_true, decide_eq_true_eq]
    constructor
    · rintro (h | ⟨rfl, h⟩)
      · exact List.Lex.rel h
      · exact List.Lex.cons ((charLtb_iff as bs).mp h)
    · intro h
      cases h with
      | cons h => exact Or.inr ⟨rfl, (charLtb_iff as bs).mpr h⟩
      | rel h => exact Or.inl h

/-- String comparison as `lib.rs`'s `BTreeMap<String, _>` orders its keys. -/
def strLtb (a b : String) : Bool :=
  charLtb a.data b.data

theorem strLtb_eq_true_iff {a b : String} : strLtb a b = true ↔ a < b := by
  rw [String.lt_iff_toList_lt]
  exact charLtb_iff a.data b.data

/-- `tags.entry(tag).or_insert(Vec::new()).push(post)`: ordered insert into
the sorted association list, appending to an existing entry's vector. -/
def tagsInsert (t : String) (p : Post) : Tags → Tags
  | [] => [(t, [p])]
  | (k, l) :: rest =>
    if strLtb t k then (t, [p]) :: (k, l) :: rest
    else if t = k then (k, l ++ [p]) :: rest
    else (k, l) :: tagsInsert t p rest

/-- The inner loop of `Mdblog::load` (`src/lib.rs:148-151`): insert a
non-hidden post under each of its tags. -/
def insertPostTags (p : Post) (ts : Tags) : Tags :=
  p.tags.foldl (fun acc t => tagsInsert t p acc) ts

/-! ## Settings and the blog object -/

/-- The settings fields `src/lib.rs` reads (`settings.rs` itself is not
under `src/`). -/
structure Settings where
  theme : String
  site_name : String
  site_logo : String
  site_motto : String
  footer_note : String
  build_dir : String
  rebuild_interval : Nat
  deriving DecidableEq, Repr

/-- A value in a Tera rendering context: a scalar string, or a list of
string-keyed maps (used for `all_tags`, `post_tags` and `posts`). -/
inductive CtxVal where
  | str (s : String)
  | maps (ms : List (List (String × String)))
  deriving DecidableEq, Repr

/-- A Tera rendering context, in insertion order. -/
abbrev Context := List (String × CtxVal)

/-- `Context::add`. -/
def ctxAdd (c : Context) (key : String) (v : CtxVal) : Context :=
  c ++ [(key, v)]

/-- Look up a context field (keys are distinct in every context built by
`lib.rs`). -/
def ctxGet (key : String) (c : Context) : Option CtxVal :=
  (c.find? (fun kv => kv.1 = key)).map (fun kv => kv.2)

/-- The `Mdblog` struct (`src/lib.rs:63-76`).  The Tera renderer is an
external collaborator, embedded as a total function from template name and
context to the rendered page; the theme is kept as its name only. -/
structure Mdblog where
  root : String
  settings : Settings
  renderer : String → Context → String
  posts : List Post
  tags : Tags

/-! ## `Mdblog::load` (`src/lib.rs:128-161`)

`load` walks `root/posts` and reads each qualifying file; the walk itself
is modelled separately (see `walkF` below for claim C5).  Here the loop
body takes the qualifying files as a list of `(relative path, raw bytes)`
pairs in encounter order.  The filesystem read errors hidden inside
`walkdir` (`expect("get walker entry error")`) are outside the model. -/

/-- One qualifying file handed to the loop of `load`: its path relative to
the blog root (as produced by `strip_prefix(&self.root)`) and its raw
content. -/
structure FileEntry where
  relPath : String
  raw : String
  deriving DecidableEq, Repr

/-- The `for entry in walker` loop of `load`: parse each file, collect the
posts in encounter order, and index every non-hidden post under each of its
tags; the first parse failure aborts the whole loop (`post.load()?`). -/
def loadLoop : List FileEntry → List Post → Tags → Except Error (List Post × Tags)
  | [], posts, tags => .ok (posts, tags)
  | f :: rest, posts, tags =>
    match parsePost f.relPath f.raw with
    | .error e => .error e
    | .ok post =>
      loadLoop rest (posts ++ [post])
        (if post.is_hidden then tags else insertPostTags post tags)

/-- The comparator of `load`'s sorts:
`|p1, p2| p2.datetime().cmp(&p1.datetime())`, i.e. newest first. -/
def postDescLe (p q : Post) : Bool :=
  DateTime.leb q.datetime p.datetime

/-- Stable insertion into a sorted list: the new element goes before the
first element it may precede, so an earlier-encountered element never jumps
over an equivalent later one. -/
def insertLe (le : α → α → Bool) (x : α) : List α → List α
  | [] => [x]
  | y :: ys => if le x y then x :: y :: ys else y :: insertLe le x ys

/-- Stable sort by a boolean total preorder.  Rust's `Vec::sort_by` is a
stable sort, and the output of a stable sort is uniquely determined by the
comparator and the input order, so stable insertion sort is an exact
embedding of it. -/
def sortLe (le : α → α → Bool) : List α → List α
  | [] => []
  | x :: xs => insertLe le x (sortLe le xs)

/-- `posts.sort_by(|p1, p2| p2.datetime().cmp(&p1.datetime()))`. -/
def sortPostsDesc (ps : List Post) : List Post :=
  sortLe postDescLe ps

/-- `for (_, tag_posts) in tags.iter_mut() { tag_posts.sort_by(...) }`. -/
def sortTagsValues (ts : Tags) : Tags :=
  ts.map (fun kl => (kl.1, sortPostsDesc kl.2))

/-- `Mdblog::load`: on success the `posts` and `tags` fields are replaced
wholesale; on the first parse failure the error propagates (`?`) and the
fields keep their previous values. -/
def Mdblog.load (blog : Mdblog) (files : List FileEntry) : Mdblog × Option Error :=
  match loadLoop files [] [] with
  | .error e => (blog, some e)
  | .ok (posts, tags) =>
    ({ blog with posts := sortPostsDesc posts, tags := sortTagsValues tags },
     none)

/-- Parsing pass of the loop in isolation: the posts in encounter order, or
the first parse error. -/
def parseAll : List FileEntry → Except Error (List Post)
  | [] => .ok []
  | f :: rest =>
    match parsePost f.relPath f.raw with
    | .error e => .error e
    | .ok p => (parseAll rest).map (fun ps => p :: ps)

/-- Aggregation pass of the loop in isolation. -/
def buildTagsFrom (acc : Tags) : List Post → Tags
  | [] => acc
  | p :: ps => buildTagsFrom (if p.is_hidden then acc else insertPostTags p acc) ps

theorem loadLoop_eq (files : List FileEntry) (posts : List Post) (tags : Tags) :
    loadLoop files posts tags =
      match parseAll files with
      | .error e => .error e
      | .ok ps => .ok (posts ++ ps, buildTagsFrom tags ps) := by
  induction files generalizing posts tags with
  | nil => simp [loadLoop, parseAll, buildTagsFrom]
  | cons f rest ih =>
    cases hp : parsePost f.relPath f.raw with
    | error e => simp [loadLoop, parseAll, hp]
    | ok p =>
      simp only [loadLoop, parseAll, hp]
      rw [ih]
      cases parseAll rest with
      | error e => rfl
      | ok ps => simp [buildTagsFrom, Except.map]

/-! ## Glob patterns

`watch` and `create_post` filter paths with `glob::Pattern`.  The two
patterns built by `get_ignore_patterns` compile (by `Pattern::new`) to
sequences of three token kinds: literal characters, `*` (any characters
within one component) and `**` (zero or more whole components, with the
following `/` absorbed).  `matchTokens` embeds the crate's `matches_from`
under the default `MatchOptions` (where `require_literal_leading_dot` is
off, so the separator bookkeeping that option needs is dropped). -/

inductive GlobToken where
  | char (c : Char)
  | anySeq
  | anyRecSeq
  deriving DecidableEq, Repr

mutual

/-- Match a token sequence against the remaining characters: a literal
consumes one matching character, `*` tries the empty match then consumes
non-separator characters, `**` tries the empty match then consumes whole
components. -/
def matchTokens : List GlobToken → List Char → Bool
  | [], cs => cs.isEmpty
  | .char _ :: _, [] => false
  | .char c :: ts, x :: xs => c = x && matchTokens ts xs
  | .anySeq :: ts, cs => matchTokens ts cs || consumeSeq ts cs
  | .anyRecSeq :: ts, cs => matchTokens ts cs || consumeRec ts cs
termination_by ts cs => (ts.length, cs.length)

/-- `*` consuming at least one character: stops at a separator, otherwise
tries the rest of the pattern after each consumed character. -/
def consumeSeq : List GlobToken → List Char → Bool
  | _, [] => false
  | ts, x :: xs => x ≠ '/' && (matchTokens ts xs || consumeSeq ts xs)
termination_by ts cs => (ts.length, cs.length)

/-- `**` consuming at least one character: tries the rest of the pattern
only just after a consumed separator. -/
def consumeRec : List GlobToken → List Char → Bool
  | _, [] => false
  | ts, x :: xs =>
    if x = '/' then matchTokens ts xs || consumeRec ts xs else consumeRec ts xs
termination_by ts cs => (ts.length, cs.length)

end

/-- `Pattern::matches_path`. -/
def matchesPath (ts : List GlobToken) (p : String) : Bool :=
  matchTokens ts p.data

/-- The compiled form of `Pattern::new("**/.*")`. -/
def hiddenGlobTokens : List GlobToken :=
  [.anyRecSeq, .char '.', .anySeq]

/-- The compiled form of
`Pattern::new(&format!("{}/**/*", build_dir))` for a build directory that
contains no glob metacharacters. -/
def buildGlobTokens (buildDir : String) : List GlobToken :=
  buildDir.data.map GlobToken.char ++ [.char '/', .anyRecSeq, .anySeq]

/-- `str::trim_right_matches("/")`. -/
def trimRightSlashes (s : String) : String :=
  String.mk ((s.data.reverse.dropWhile (fun c => c = '/')).reverse)

/-- `Mdblog::get_build_dir` (`src/lib.rs:263-271`).  `shellexpand::full` is
an external collaborator; expansion is modelled as the identity, i.e.
`settings.build_dir` is taken as already expanded. -/
def Mdblog.get_build_dir (blog : Mdblog) : String :=
  let build_dir := blog.settings.build_dir
  if pathIsRelative build_dir then joinPath blog.root build_dir else build_dir

/-- `Mdblog::get_ignore_patterns` (`src/lib.rs:273-281`): the hidden-file
glob `**/.*`, then the build-directory subtree glob. -/
def Mdblog.get_ignore_patterns (blog : Mdblog) : List (List GlobToken) :=
  [hiddenGlobTokens, buildGlobTokens (trimRightSlashes blog.get_build_dir)]

/-! ## The watch loop (`Mdblog::watch`, `src/lib.rs:215-261`)

Time is abstracted to natural instants (the units of
`settings.rebuild_interval`).  Each loop iteration receives a debounced
event together with the snapshot of post files a rebuild would read at that
moment. -/

/-- The `DebouncedEvent` alternatives of the `notify` crate. -/
inductive EventKind where
  | noticeWrite
  | noticeRemove
  | create
  | write
  | chmod
  | remove
  | rename
  | rescan
  deriving DecidableEq, Repr

/-- The match arm of `watch` handles `Create`, `Write`, `Remove` and
`Rename`; every other event falls into the `_ => {}` arm. -/
def qualifyingKind : EventKind → Bool
  | .create | .write | .remove | .rename => true
  | _ => false

/-- A received event with its path and arrival instant (`Instant::now()`). -/
structure WEvent where
  kind : EventKind
  path : String
  time : Nat
  deriving DecidableEq, Repr

/-- The loop-carried watch state: the `last_run` throttle timestamp. -/
structure WatchState where
  lastRun : Option Nat
  deriving DecidableEq, Repr

/-- One received event plus the post files a triggered rebuild would load. -/
structure WatchIter where
  event : WEvent
  files : List FileEntry

/-- One iteration of the `loop` in `watch` for one received event: skip
non-qualifying kinds, skip ignored paths, skip events inside the throttle
interval; otherwise set `last_run` to the event's instant
(`src/lib.rs:241`) and attempt `load` then `build`.  A failed `load` leaves
the blog unchanged and `continue`s; `build` only writes files.  The `Bool`
result records whether a rebuild was triggered. -/
def watchStep (patterns : List (List GlobToken)) (interval : Nat)
    (st : Mdblog × WatchState) (it : WatchIter) : (Mdblog × WatchState) × Bool :=
  if !qualifyingKind it.event.kind then (st, false)
  else if patterns.any (fun pat => matchesPath pat it.event.path) then (st, false)
  else
    let throttled : Bool :=
      match st.2.lastRun with
      | some lastTime => decide (it.event.time - lastTime < interval)
      | none => false
    if throttled then (st, false)
    else
      let blog' := (st.1.load it.files).1
      ((blog', { lastRun := some it.event.time }), true)

/-- Run the watch loop over a finite sequence of received events, counting
the triggered rebuilds. -/
def watchRun (patterns : List (List GlobToken)) (interval : Nat)
    (st : Mdblog × WatchState) : List WatchIter → (Mdblog × WatchState) × Nat
  | [] => (st, 0)
  | it :: rest =>
    let (st', b) := watchStep patterns interval st it
    let (stf, n) := watchRun patterns interval st' rest
    (stf, (if b then 1 else 0) + n)

/-- `Mdblog::watch`: patterns are computed once before the loop, `last_run`
starts out `None`, the interval comes from the settings. -/
def Mdblog.watch (blog : Mdblog) (its : List WatchIter) : (Mdblog × WatchState) × Nat :=
  watchRun blog.get_ignore_patterns blog.settings.rebuild_interval
    (blog, { lastRun := none }) its

/-! ## `Mdblog::create_post` (`src/lib.rs:283-310`) -/

/-- The slice of filesystem state `create_post` consults, as predicates on
path strings. -/
structure FsState where
  isDir : String → Bool
  existsPath : String → Bool

/-- `Mdblog::create_post`: validate the requested path, check for
collisions, and produce the file to write as a `(path, content)` pair.
`Local::now()` is passed in as `now`; `create_file` and `write_all` are
modelled by returning the write. -/
def Mdblog.create_post (blog : Mdblog) (fs : FsState) (now : DateTime)
    (path : String) (tags : List String) : Except Error (String × String) :=
  let post_title := fileStem path
  let ignore_patterns := blog.get_ignore_patterns
  if !pathIsRelative path
      || (pathExtension path).isSome
      || path = ""
      || post_title.isNone
      || ignore_patterns.any (fun pat => matchesPath pat path) then
    .error (.PostPathInvaild path)
  else if fs.isDir path then
    .error (.PostPathExisted path)
  else
    let post_path := withExtension (joinPath (joinPath blog.root "posts") path) "md"
    if fs.existsPath post_path then
      .error (.PostPathExisted path)
    else
      .ok (post_path,
           "date: " ++ formatDateTime now ++ "\n" ++
             "tags: " ++ joinSep ", " tags ++ "\n" ++
             "\n" ++
             "this is a new post!\n")

/-! ## Rendering contexts and the export pipeline
(`src/lib.rs:357-472`) -/

/-- `Mdblog::tag_url` (`src/lib.rs:388-390`). -/
def tag_url (name : String) : String :=
  "/blog/tags/" ++ name ++ ".html"

/-- `Mdblog::tag_map` (`src/lib.rs:392-399`): name, post count
(`format!("{:?}", len)`, i.e. decimal) and URL of one tag. -/
def tag_map (name : String) (posts : List Post) : List (String × String) :=
  [("name", name), ("num", toString posts.length), ("url", tag_url name)]

/-- Look up a field of a tag map. -/
def mapGet (key : String) (m : List (String × String)) : String :=
  ((m.find? (fun kv => kv.1 = key)).map (fun kv => kv.2)).getD ""

/-- ASCII lowercase string order, embedding the
`a.to_lowercase().cmp(&b.to_lowercase())` comparator of
`get_base_context` (tags are compared bytewise after lowercasing; ASCII
suffices for the embedded comparator). -/
def lowerLe (a b : String) : Bool :=
  lexLe (a.toLower.data.map Char.toNat) (b.toLower.data.map Char.toNat)

/-- `Mdblog::get_base_context` (`src/lib.rs:401-425`): the site fields plus
`all_tags`, the tag maps sorted case-insensitively by name. -/
def Mdblog.get_base_context (blog : Mdblog) (title : String) : Context :=
  let c : Context :=
    [("title", .str title),
     ("site_logo", .str blog.settings.site_logo),
     ("site_name", .str blog.settings.site_name),
     ("site_motto", .str blog.settings.site_motto),
     ("footer_note", .str blog.settings.footer_note)]
  let all_tags := blog.tags.map (fun kl => tag_map kl.1 kl.2)
  let sorted := sortLe (fun a b => lowerLe (mapGet "name" a) (mapGet "name" b)) all_tags
  ctxAdd c "all_tags" (.maps sorted)

/-- The `for tag_key in post.tags()` loop of `render_post`
(`src/lib.rs:435-440`): resolve each tag against the index and push its
`tag_map`; a missing tag is the
`.expect("post tag(...) does not add to blog tags")` panic, embedded as
`none`. -/
def resolvePostTags (tags : Tags) : List String → Option (List (List (String × String)))
  | [] => some []
  | t :: rest =>
    match lookupTag t tags with
    | none => none
    | some tag_posts =>
      (resolvePostTags tags rest).map (fun ms => tag_map t tag_posts :: ms)

/-- The context `Mdblog::render_post` (`src/lib.rs:427-447`) hands to the
renderer, or `none` when a tag lookup panics.  Field order follows the
source: `content`, then `datetime` (the formatted datetime for visible
posts, `""` for hidden ones), then `post_tags` (each tag resolved against
the index for visible posts, empty for hidden ones). -/
def Mdblog.render_post_context (blog : Mdblog) (p : Post) : Option Context :=
  let c0 := ctxAdd (blog.get_base_context p.title) "content" (.str p.content)
  if !p.is_hidden then
    let c1 := ctxAdd c0 "datetime" (.str (formatDateTime p.datetime))
    match resolvePostTags blog.tags p.tags with
    | none => none
    | some post_tags => some (ctxAdd c1 "post_tags" (.maps post_tags))
  else
    some (ctxAdd (ctxAdd c0 "datetime" (.str "")) "post_tags" (.maps []))

/-- `Mdblog::render_post`. -/
def Mdblog.render_post (blog : Mdblog) (p : Post) : Option String :=
  (blog.render_post_context p).map (blog.renderer "post.tpl")

/-- Modelled from the spec: `Post::map` of the missing `post.rs`, the
string-keyed map a listing page receives for one post. -/
def Post.map (p : Post) : List (String × String) :=
  [("title", p.title), ("url", "/" ++ p.dest),
   ("datetime", formatDateTime p.datetime)]

/-- `Mdblog::get_posts_maps` (`src/lib.rs:456-462`): the maps of the
non-hidden posts, in order. -/
def Mdblog.get_posts_maps (posts : List Post) : List (List (String × String)) :=
  (posts.filter (fun p => !p.is_hidden)).map Post.map

/-- The context `Mdblog::render_index` (`src/lib.rs:449-454`) hands to the
renderer. -/
def Mdblog.render_index_context (blog : Mdblog) : Context :=
  ctxAdd (blog.get_base_context blog.settings.site_name) "posts"
    (.maps (Mdblog.get_posts_maps blog.posts))

/-- `Mdblog::render_index`. -/
def Mdblog.render_index (blog : Mdblog) : String :=
  blog.renderer "index.tpl" blog.render_index_context

/-- `Mdblog::export_posts` (`src/lib.rs:357-366`): render every post (hidden
ones included) and write it to `build_dir/post.dest()`; modelled as the
list of `(destination, html)` writes, `none` if a render panics. -/
def Mdblog.export_posts (blog : Mdblog) : Option (List (String × String)) :=
  blog.posts.mapM (fun p =>
    (blog.render_post p).map (fun html =>
      (joinPath blog.get_build_dir p.dest, html)))

/-- `Mdblog::export_index` (`src/lib.rs:368-375`) as its single write. -/
def Mdblog.export_index (blog : Mdblog) : String × String :=
  (joinPath blog.get_build_dir "index.html", blog.render_index)

/-! ## The posts walk (`src/lib.rs:131-138`, `520-546`)

The posts tree is embedded as a forest of named files and directories; the
`WalkDir` iterator with `filter_entry(|e| !is_hidden(e))` prunes every
hidden entry together with its whole subtree.  Entries carry their path
components relative to the walk root (`root/posts`, whose own name
`"posts"` is never hidden) and their file/directory kind. -/

inductive FsTree where
  | file (name : String)
  | dir (name : String) (children : List FsTree)
  deriving Repr

/-- One yielded walk entry: path components relative to the walk root
(ending in the entry's own name) and whether it is a file. -/
structure WalkEntry where
  comps : List String
  isFile : Bool
  deriving DecidableEq, Repr

/-- `DirEntry::file_name` of an entry below the walk root. -/
def WalkEntry.name (e : WalkEntry) : String :=
  (e.comps.getLast?).getD "posts"

/-- `is_hidden` (`src/lib.rs:520-525`): the file name starts with `.`. -/
def is_hidden_name (n : String) : Bool :=
  match n.data with
  | c :: _ => c = '.'
  | [] => false

/-- `is_markdown_file` (`src/lib.rs:527-546`): a file whose name does not
start with `.` or `~` and ends with `.md`. -/
def is_markdown_file (e : WalkEntry) : Bool :=
  if !e.isFile then false
  else
    match e.name.data with
    | [] => false
    | c :: _ =>
      if c = '.' || c = '~' then false
      else if (".md".data).isSuffixOf e.name.data then true
      else false

/-- Walk a forest depth-first under prefix `pre`, pruning hidden entries
with their subtrees (`filter_entry(|e| !is_hidden(e))`). -/
def walkF (pre : List String) : List FsTree → List WalkEntry
  | [] => []
  | .file n :: ts =>
    (if is_hidden_name n then [] else [⟨pre ++ [n], true⟩]) ++ walkF pre ts
  | .dir n cs :: ts =>
    (if is_hidden_name n then []
     else ⟨pre ++ [n], false⟩ :: walkF (pre ++ [n]) cs) ++ walkF pre ts

/-- The unpruned walk of the same forest: every entry in the tree. -/
def rawWalkF (pre : List String) : List FsTree → List WalkEntry
  | [] => []
  | .file n :: ts => ⟨pre ++ [n], true⟩ :: rawWalkF pre ts
  | .dir n cs :: ts => ⟨pre ++ [n], false⟩ :: rawWalkF (pre ++ [n]) cs ++ rawWalkF pre ts

/-- The entries of the pruned walk of `root/posts` that pass the
`is_markdown_file` check and hence contribute a post
(`src/lib.rs:134-138`; the root entry itself is a directory and never
contributes). -/
def load_candidate_entries (forest : List FsTree) : List WalkEntry :=
  (walkF [] forest).filter is_markdown_file

/-! ## Lemmas: the tag index -/

/-- The `BTreeMap` key invariant: strictly sorted (hence distinct) keys. -/
def SortedKeys (ts : Tags) : Prop :=
  (ts.map Prod.fst).Pairwise (· < ·)

theorem lookupTag_eq_none {t : String} {ts : Tags} (h : ∀ kl ∈ ts, kl.1 ≠ t) :
    lookupTag t ts = none := by
  induction ts with
  | nil => rfl
  | cons kl rest ih =>
    obtain ⟨k, l⟩ := kl
    have hk : k ≠ t := h (k, l) (List.mem_cons_self _ _)
    simp only [lookupTag, if_neg hk]
    exact ih (fun kl hkl => h kl (List.mem_cons_of_mem _ hkl))

theorem keys_tagsInsert {t : String} {p : Post} {ts : Tags} {k' : String} :
    k' ∈ (tagsInsert t p ts).map Prod.fst ↔ k' = t ∨ k' ∈ ts.map Prod.fst := by
  induction ts with
  | nil => simp [tagsInsert]
  | cons kl rest ih =>
    obtain ⟨k, l⟩ := kl
    simp only [tagsInsert]
    by_cases h1 : t < k
    · rw [if_pos (strLtb_eq_true_iff.mpr h1)]
      simp only [List.map_cons, List.mem_cons]
    · rw [if_neg (fun hc => h1 (strLtb_eq_true_iff.mp hc))]
      by_cases h2 : t = k
      · rw [if_pos h2]
        subst h2
        simp only [List.map_cons, List.mem_cons]
        tauto
      · rw [if_neg h2]
        simp only [List.map_cons, List.mem_cons, ih]
        tauto

theorem sortedKeys_tagsInsert {t : String} {p : Post} {ts : Tags}
    (h : SortedKeys ts) : SortedKeys (tagsInsert t p ts) := by
  induction ts with
  | nil => simp [SortedKeys, tagsInsert]
  | cons kl rest ih =>
    obtain ⟨k, l⟩ := kl
    simp only [SortedKeys, List.map_cons, List.pairwise_cons] at h
    obtain ⟨hk, hrest⟩ := h
    simp only [SortedKeys, tagsInsert]
    by_cases h1 : t < k
    · rw [if_pos (strLtb_eq_true_iff.mpr h1)]
      simp only [List.map_cons, List.pairwise_cons]
      refine ⟨?_, hk, hrest⟩
      intro a ha
      rcases List.mem_cons.mp ha with rfl | ha
      · exact h1
      · exact lt_trans h1 (hk a ha)
    · rw [if_neg (fun hc => h1 (strLtb_eq_true_iff.mp hc))]
      by_cases h2 : t = k
      · rw [if_pos h2]
        subst h2
        simp only [List.map_cons, List.pairwise_cons]
        exact ⟨hk, hrest⟩
      · rw [if_neg h2]
        simp only [List.map_cons, List.pairwise_cons]
        refine ⟨?_, ih hrest⟩
        intro a ha
        rcases keys_tagsInsert.mp ha with rfl | ha
        · exact lt_of_le_of_ne (not_lt.mp h1) (Ne.symm h2)
        · exact hk a ha

theorem lookupTag_tagsInsert_ne {t t' : String} {p : Post} {ts : Tags}
    (h : t' ≠ t) : lookupTag t (tagsInsert t' p ts) = lookupTag t ts := by
  induction ts with
  | nil =>
    simp only [tagsInsert, lookupTag]
    rw [if_neg h]
  | cons kl rest ih =>
    obtain ⟨k, l⟩ := kl
    simp only [tagsInsert]
    by_cases h1 : t' < k
    · rw [if_pos (strLtb_eq_true_iff.mpr h1)]
      simp only [lookupTag]
      rw [if_neg h]
    · rw [if_neg (fun hc => h1 (strLtb_eq_true_iff.mp hc))]
      by_cases h2 : t' = k
      · rw [if_pos h2]
        subst h2
        simp only [lookupTag]
        rw [if_neg h, if_neg h]
      · rw [if_neg h2]
        simp only [lookupTag]
        by_cases h3 : k = t
        · rw [if_pos h3, if_pos h3]
        · rw [if_neg h3, if_neg h3, ih]

theorem lookupTag_tagsInsert_self {t : String} {p : Post} {ts : Tags}
    (h : SortedKeys ts) :
    lookupTag t (tagsInsert t p ts) =
      some ((lookupTag t ts).getD [] ++ [p]) := by
  induction ts with
  | nil => simp [tagsInsert, lookupTag]
  | cons kl rest ih =>
    obtain ⟨k, l⟩ := kl
    simp only [SortedKeys, List.map_cons, List.pairwise_cons] at h
    obtain ⟨hk, hrest⟩ := h
    simp only [tagsInsert]
    by_cases h1 : t < k
    · have hnone : lookupTag t ((k, l) :: rest) = none := by
        apply lookupTag_eq_none
        intro kl hkl
        rcases List.mem_cons.mp hkl with rfl | hkl
        · exact ne_of_gt h1
        · exact ne_of_gt (lt_trans h1 (hk kl.1 (List.mem_map_of_mem _ hkl)))
      rw [if_pos (strLtb_eq_true_iff.mpr h1), hnone]
      simp [lookupTag]
    · rw [if_neg (fun hc => h1 (strLtb_eq_true_iff.mp hc))]
      by_cases h2 : t = k
      · rw [if_pos h2]
        subst h2
        simp only [lookupTag, if_pos rfl]
        simp
      · rw [if_neg h2]
        have h3 : k ≠ t := fun hkt => h2 hkt.symm
        simp only [lookupTag]
        rw [if_neg h3, if_neg h3, ih hrest]

theorem mem_iff_lookupTag {t : String} {l : List Post} {ts : Tags}
    (h : SortedKeys ts) : (t, l) ∈ ts ↔ lookupTag t ts = some l := by
  induction ts with
  | nil => simp [lookupTag]
  | cons kl rest ih =>
    obtain ⟨k, l0⟩ := kl
    simp only [SortedKeys, List.map_cons, List.pairwise_cons] at h
    obtain ⟨hk, hrest⟩ := h
    simp only [List.mem_cons, lookupTag]
    by_cases h3 : k = t
    · subst h3
      rw [if_pos rfl]
      constructor
      · rintro (heq | hmem)
        · injection heq with h1 h2
          rw [h2]
        · exact absurd (hk k (List.mem_map_of_mem _ hmem)) (lt_irrefl k)
      · intro hsome
        injection hsome with h1
        exact Or.inl (by rw [h1])
    · rw [if_neg h3]
      constructor
      · rintro (heq | hmem)
        · injection heq with h1 h2
          exact absurd h1.symm h3
        · exact (ih hrest).mp hmem
      · intro hl
        exact Or.inr ((ih hrest).mpr hl)

theorem lookupTag_foldl_insert {t : String} {p : Post} {L : List String}
    {ts : Tags} (hnd : L.Nodup) (hs : SortedKeys ts) :
    lookupTag t (L.foldl (fun acc t' => tagsInsert t' p acc) ts) =
      if t ∈ L then some ((lookupTag t ts).getD [] ++ [p])
      else lookupTag t ts := by
  induction L generalizing ts with
  | nil => simp
  | cons t' L' ih =>
    simp only [List.foldl_cons]
    have hs' := sortedKeys_tagsInsert (t := t') (p := p) hs
    have hnd' : L'.Nodup := (List.nodup_cons.mp hnd).2
    rw [ih hnd' hs']
    by_cases h : t = t'
    · subst h
      have hnin : t ∉ L' := (List.nodup_cons.mp hnd).1
      rw [if_neg hnin, if_pos (List.mem_cons_self _ _),
        lookupTag_tagsInsert_self hs]
    · rw [lookupTag_tagsInsert_ne (fun he => h he.symm)]
      by_cases h2 : t ∈ L'
      · rw [if_pos h2, if_pos (List.mem_cons_of_mem _ h2)]
      · rw [if_neg h2, if_neg (by simp [List.mem_cons, h, h2])]

theorem sortedKeys_foldl_insert {p : Post} {L : List String} {ts : Tags}
    (hs : SortedKeys ts) :
    SortedKeys (L.foldl (fun acc t' => tagsInsert t' p acc) ts) := by
  induction L generalizing ts with
  | nil => exact hs
  | cons t' L' ih => exact ih (sortedKeys_tagsInsert hs)

theorem sortedKeys_insertPostTags {p : Post} {ts : Tags}
    (hs : SortedKeys ts) : SortedKeys (insertPostTags p ts) := by
  unfold insertPostTags
  exact sortedKeys_foldl_insert hs

theorem sortedKeys_buildTagsFrom {ps : List Post} {acc : Tags}
    (hs : SortedKeys acc) : SortedKeys (buildTagsFrom acc ps) := by
  induction ps generalizing acc with
  | nil => exact hs
  | cons p ps ih =>
    simp only [buildTagsFrom]
    cases hh : p.is_hidden with
    | true =>
      rw [if_pos rfl]
      exact ih hs
    | false =>
      rw [if_neg Bool.false_ne_true]
      exact ih (sortedKeys_foldl_insert hs)

theorem lookupTag_buildTagsFrom {t : String} {ps : List Post} {acc : Tags}
    (hnd : ∀ p ∈ ps, p.tags.Nodup) (hs : SortedKeys acc) :
    lookupTag t (buildTagsFrom acc ps) =
      if (ps.filter (fun p => !p.is_hidden && p.tags.contains t)).isEmpty
      then lookupTag t acc
      else some ((lookupTag t acc).getD [] ++
        ps.filter (fun p => !p.is_hidden && p.tags.contains t)) := by
  induction ps generalizing acc with
  | nil => simp [buildTagsFrom]
  | cons p ps ih =>
    have hndp : p.tags.Nodup := hnd p (List.mem_cons_self _ _)
    have hndr : ∀ q ∈ ps, q.tags.Nodup :=
      fun q hq => hnd q (List.mem_cons_of_mem _ hq)
    simp only [buildTagsFrom]
    cases hh : p.is_hidden with
    | true =>
      rw [if_pos rfl, ih hndr hs,
        List.filter_cons_of_neg (by simp [hh])]
    | false =>
      rw [if_neg Bool.false_ne_true, ih hndr (sortedKeys_insertPostTags hs)]
      cases hc : p.tags.contains t with
      | true =>
        have hmem : t ∈ p.tags := by
          simpa using hc
        have hacc : lookupTag t (insertPostTags p acc) =
            some ((lookupTag t acc).getD [] ++ [p]) := by
          unfold insertPostTags
          rw [lookupTag_foldl_insert hndp hs, if_pos hmem]
        rw [List.filter_cons_of_pos (by simp [hh, hmem]), hacc]
        cases hfe : (ps.filter (fun q => !q.is_hidden && q.tags.contains t)).isEmpty with
        | true =>
          rw [if_pos rfl]
          have hnil : ps.filter (fun q => !q.is_hidden && q.tags.contains t) = [] :=
            List.isEmpty_iff.mp hfe
          rw [hnil]
          simp
        | false =>
          rw [if_neg Bool.false_ne_true]
          simp only [List.isEmpty_cons, if_neg Bool.false_ne_true,
            Option.getD_some]
          rw [List.append_assoc, List.singleton_append]
      | false =>
        have hmem : t ∉ p.tags := by
          simpa using hc
        have hacc : lookupTag t (insertPostTags p acc) = lookupTag t acc := by
          unfold insertPostTags
          rw [lookupTag_foldl_insert hndp hs, if_neg hmem]
        rw [List.filter_cons_of_neg (by simp [hh, hmem]), hacc]

/-- Keys and per-key posts of `sortTagsValues`: lookup commutes with the
per-value sort. -/
theorem lookupTag_sortTagsValues {t : String} {ts : Tags} :
    lookupTag t (sortTagsValues ts) = (lookupTag t ts).map sortPostsDesc := by
  induction ts with
  | nil => simp [sortTagsValues, lookupTag]
  | cons kl rest ih =>
    obtain ⟨k, l⟩ := kl
    simp only [sortTagsValues, List.map_cons, lookupTag]
    by_cases h : k = t
    · rw [if_pos h, if_pos h]
      rfl
    · rw [if_neg h, if_neg h]
      exact ih

theorem sortedKeys_sortTagsValues {ts : Tags} (h : SortedKeys ts) :
    SortedKeys (sortTagsValues ts) := by
  have : (sortTagsValues ts).map Prod.fst = ts.map Prod.fst := by
    induction ts with
    | nil => rfl
    | cons kl rest ih => simp [sortTagsValues, ih]
  unfold SortedKeys
  rw [this]
  exact h

/-! ## Lemmas: parsing and the load loop -/

theorem parsePost_path {path raw : String} {p : Post}
    (h : parsePost path raw = .ok p) : p.path = path := by
  simp only [parsePost] at h
  split at h
  · exact absurd h (by simp)
  · split at h
    · exact absurd h (by simp)
    · injection h with h'
      rw [← h']

theorem dedupKeepFirst_nodup : ∀ l : List String, (dedupKeepFirst l).Nodup
  | [] => List.nodup_nil
  | s :: ss => by
    simp only [dedupKeepFirst, List.nodup_cons]
    constructor
    · intro hmem
      have := (List.mem_filter.mp hmem).2
      simp at this
    · exact (dedupKeepFirst_nodup ss).filter _

theorem parsePost_tags_nodup {path raw : String} {p : Post}
    (h : parsePost path raw = .ok p) : p.tags.Nodup := by
  simp only [parsePost] at h
  split at h
  · exact absurd h (by simp)
  · split at h
    · exact absurd h (by simp)
    · injection h with h'
      rw [← h']
      cases headerValue "tags" _ with
      | none => exact List.nodup_nil
      | some v => exact dedupKeepFirst_nodup _

theorem parseAll_map_path {files : List FileEntry} {ps : List Post}
    (h : parseAll files = .ok ps) :
    ps.map Post.path = files.map FileEntry.relPath := by
  induction files generalizing ps with
  | nil =>
    simp only [parseAll] at h
    injection h with h'
    rw [← h']
    rfl
  | cons f rest ih =>
    simp only [parseAll] at h
    cases hp : parsePost f.relPath f.raw with
    | error e => rw [hp] at h; exact absurd h (by simp)
    | ok p =>
      rw [hp] at h
      cases hr : parseAll rest with
      | error e => rw [hr] at h; exact absurd h (by simp [Except.map])
      | ok ps' =>
        rw [hr] at h
        simp only [Except.map] at h
        injection h with h'
        rw [← h']
        simp [parsePost_path hp, ih hr]

theorem parseAll_tags_nodup {files : List FileEntry} {ps : List Post}
    (h : parseAll files = .ok ps) : ∀ p ∈ ps, p.tags.Nodup := by
  induction files generalizing ps with
  | nil =>
    simp only [parseAll] at h
    injection h with h'
    rw [← h']
    intro p hp
    exact absurd hp (List.not_mem_nil p)
  | cons f rest ih =>
    simp only [parseAll] at h
    cases hp : parsePost f.relPath f.raw with
    | error e => rw [hp] at h; exact absurd h (by simp)
    | ok p =>
      rw [hp] at h
      cases hr : parseAll rest with
      | error e => rw [hr] at h; exact absurd h (by simp [Except.map])
      | ok ps' =>
        rw [hr] at h
        simp only [Except.map] at h
        injection h with h'
        rw [← h']
        intro q hq
        rcases List.mem_cons.mp hq with rfl | hq
        · exact parsePost_tags_nodup hp
        · exact ih hr q hq

theorem parseAll_error_of_first {pre rest : List FileEntry} {f : FileEntry}
    {e : Error} (hpre : ∀ g ∈ pre, (parsePost g.relPath g.raw).isOk = true)
    (hf : parsePost f.relPath f.raw = .error e) :
    parseAll (pre ++ f :: rest) = .error e := by
  induction pre with
  | nil =>
    simp only [List.nil_append, parseAll, hf]
  | cons g pre' ih =>
    have hg := hpre g (List.mem_cons_self _ _)
    obtain ⟨p, hgp⟩ : ∃ p, parsePost g.relPath g.raw = .ok p := by
      cases hq : parsePost g.relPath g.raw with
      | error e' => rw [hq] at hg; exact absurd hg (by simp [Except.isOk, Except.toBool])
      | ok p => exact ⟨p, rfl⟩
    simp only [List.cons_append, parseAll, hgp, List.append_eq]
    rw [ih (fun x hx => hpre x (List.mem_cons_of_mem _ hx))]
    rfl

theorem parseAll_error_of_exists {files : List FileEntry}
    (h : ∃ f ∈ files, (parsePost f.relPath f.raw).isOk = false) :
    ∃ e, parseAll files = .error e := by
  induction files with
  | nil => simp at h
  | cons f rest ih =>
    simp only [parseAll]
    cases hp : parsePost f.relPath f.raw with
    | error e => exact ⟨e, rfl⟩
    | ok p =>
      obtain ⟨g, hg, hgerr⟩ := h
      rcases List.mem_cons.mp hg with rfl | hgmem
      · rw [hp] at hgerr
        exact absurd hgerr (by simp [Except.isOk, Except.toBool])
      · obtain ⟨e, he⟩ := ih ⟨g, hgmem, hgerr⟩
        rw [he]
        exact ⟨e, rfl⟩

theorem load_of_parse_error {blog : Mdblog} {files : List FileEntry} {e : Error}
    (h : parseAll files = .error e) :
    blog.load files = (blog, some e) := by
  unfold Mdblog.load
  rw [loadLoop_eq, h]

theorem load_of_parse_ok {blog : Mdblog} {files : List FileEntry}
    {ps : List Post} (h : parseAll files = .ok ps) :
    blog.load files =
      ({ blog with posts := sortPostsDesc ps,
                   tags := sortTagsValues (buildTagsFrom [] ps) }, none) := by
  unfold Mdblog.load
  rw [loadLoop_eq, h]
  simp

/-! ## A concrete blog and post files, for the witnesses -/

/-- A concrete settings value (the defaults of the crate). -/
def sampleSettings : Settings :=
  { theme := "simple", site_name := "Mdblog", site_logo := "",
    site_motto := "", footer_note := "", build_dir := "_build",
    rebuild_interval := 2 }

/-- A concrete blog object with an empty state and a constant renderer. -/
def sampleBlog : Mdblog :=
  { root := "/blog", settings := sampleSettings,
    renderer := fun _ _ => "<html/>", posts := [], tags := [] }

/-- The two posts of the spec's end-to-end scenario (§8). -/
def helloFile : FileEntry :=
  { relPath := "posts/hello.md",
    raw := "date: 2020-01-01 10:00:00\ntags: intro\n\nHello" }

def mathFile : FileEntry :=
  { relPath := "posts/math.md",
    raw := "date: 2020-02-01 10:00:00\ntags: math, intro\n\nMath" }

/-- A hidden post. -/
def secretFile : FileEntry :=
  { relPath := "posts/secret.md",
    raw := "date: 2020-03-01 10:00:00\ntags: intro\nhidden: true\n\nSecret" }

/-- A post whose header line has no `:`, so parsing fails. -/
def badFile : FileEntry :=
  { relPath := "posts/bad.md", raw := "not a header line\n\nbody" }

/-! ## Claim C1 -/

/-- C1: if parsing any single post file fails then `load` returns that
error (the first failing file's error, since the loop is fail-fast) and the
blog's post collection and tag index are unchanged: `load` never produces a
partially loaded blog. -/
theorem load_failFast_atomic (blog : Mdblog) (files : List FileEntry)
    (h : ∃ f ∈ files, (parsePost f.relPath f.raw).isOk = false) :
    (∃ e, blog.load files = (blog, some e)) ∧
      ∀ pre f rest e, files = pre ++ f :: rest →
        (∀ g ∈ pre, (parsePost g.relPath g.raw).isOk = true) →
        parsePost f.relPath f.raw = .error e →
        blog.load files = (blog, some e) := by
  constructor
  · obtain ⟨e, he⟩ := parseAll_error_of_exists h
    exact ⟨e, load_of_parse_error he⟩
  · intro pre f rest e hsplit hpre hf
    subst hsplit
    exact load_of_parse_error (parseAll_error_of_first hpre hf)

/-- Witness for C1 at a concrete input: a blog with one good and one
malformed post file. -/
theorem load_failFast_atomic_witness :
    (∃ f ∈ [helloFile, badFile], (parsePost f.relPath f.raw).isOk = false) ∧
      ((∃ e, sampleBlog.load [helloFile, badFile] = (sampleBlog, some e)) ∧
        ∀ pre f rest e, [helloFile, badFile] = pre ++ f :: rest →
          (∀ g ∈ pre, (parsePost g.relPath g.raw).isOk = true) →
          parsePost f.relPath f.raw = .error e →
          sampleBlog.load [helloFile, badFile] = (sampleBlog, some e)) :=
  ⟨by decide, load_failFast_atomic sampleBlog [helloFile, badFile] (by decide)⟩

/-! ## Lemmas: the stable sort -/

theorem insertLe_perm (le : α → α → Bool) (x : α) (l : List α) :
    (insertLe le x l).Perm (x :: l) := by
  induction l with
  | nil => exact List.Perm.refl _
  | cons y ys ih =>
    simp only [insertLe]
    by_cases hle : le x y = true
    · rw [if_pos hle]
    · rw [if_neg hle]
      exact (ih.cons y).trans (List.Perm.swap x y ys)

theorem sortLe_perm (le : α → α → Bool) (l : List α) :
    (sortLe le l).Perm l := by
  induction l with
  | nil => exact List.Perm.refl _
  | cons x xs ih => exact (insertLe_perm le x (sortLe le xs)).trans (ih.cons x)

theorem mem_insertLe {le : α → α → Bool} {x z : α} {l : List α} :
    z ∈ insertLe le x l ↔ z = x ∨ z ∈ l := by
  induction l with
  | nil => simp [insertLe]
  | cons y ys ih =>
    simp only [insertLe]
    by_cases hle : le x y = true
    · rw [if_pos hle]
      simp [List.mem_cons]
    · rw [if_neg hle]
      simp only [List.mem_cons, ih]
      tauto

theorem pairwise_insertLe {le : α → α → Bool}
    (htr : ∀ a b c, le a b = true → le b c = true → le a c = true)
    (hto : ∀ a b, (le a b || le b a) = true)
    (x : α) {l : List α} (h : l.Pairwise (le · · = true)) :
    (insertLe le x l).Pairwise (le · · = true) := by
  induction l with
  | nil => simp [insertLe]
  | cons y ys ih =>
    rw [List.pairwise_cons] at h
    obtain ⟨hy, hys⟩ := h
    simp only [insertLe]
    by_cases hle : le x y = true
    · rw [if_pos hle]
      rw [List.pairwise_cons]
      constructor
      · intro z hz
        rcases List.mem_cons.mp hz with rfl | hz
        · exact hle
        · exact htr x y z hle (hy z hz)
      · rw [List.pairwise_cons]
        exact ⟨hy, hys⟩
    · rw [if_neg hle]
      rw [List.pairwise_cons]
      constructor
      · intro z hz
        rcases mem_insertLe.mp hz with hzx | hz
        · rw [hzx]
          rcases Bool.or_eq_true _ _ |>.mp (hto x y) with h' | h'
          · exact absurd h' hle
          · exact h'
        · exact hy z hz
      · exact ih hys

theorem sortLe_pairwise {le : α → α → Bool}
    (htr : ∀ a b c, le a b = true → le b c = true → le a c = true)
    (hto : ∀ a b, (le a b || le b a) = true) (l : List α) :
    (sortLe le l).Pairwise (le · · = true) := by
  induction l with
  | nil => simp [sortLe]
  | cons x xs ih => exact pairwise_insertLe htr hto x ih

theorem filter_insertLe {le : α → α → Bool} {pred : α → Bool}
    (hcl : ∀ a b, pred a = true → pred b = true → le a b = true)
    (x : α) (l : List α) :
    (insertLe le x l).filter pred =
      if pred x then x :: l.filter pred else l.filter pred := by
  induction l with
  | nil =>
    by_cases hp : pred x = true <;> simp [insertLe, List.filter, hp]
  | cons y ys ih =>
    simp only [insertLe]
    by_cases hle : le x y = true
    · rw [if_pos hle]
      by_cases hp : pred x = true <;> simp [List.filter_cons, hp]
    · rw [if_neg hle]
      by_cases hpy : pred y = true
      · have hpx : pred x ≠ true := fun hpx => hle (hcl x y hpx hpy)
        rw [List.filter_cons_of_pos hpy, ih, if_neg hpx, if_neg hpx,
          List.filter_cons_of_pos hpy]
      · rw [List.filter_cons_of_neg hpy, ih,
          List.filter_cons_of_neg hpy]

theorem sortLe_filter {le : α → α → Bool} {pred : α → Bool}
    (hcl : ∀ a b, pred a = true → pred b = true → le a b = true)
    (l : List α) : (sortLe le l).filter pred = l.filter pred := by
  induction l with
  | nil => rfl
  | cons x xs ih =>
    simp only [sortLe]
    rw [filter_insertLe hcl, ih]
    by_cases hp : pred x = true
    · rw [if_pos hp, List.filter_cons_of_pos hp]
    · rw [if_neg hp, List.filter_cons_of_neg hp]

theorem sortPostsDesc_perm (ps : List Post) : (sortPostsDesc ps).Perm ps :=
  sortLe_perm postDescLe ps

theorem postDescLe_trans (a b c : Post) (h1 : postDescLe a b = true)
    (h2 : postDescLe b c = true) : postDescLe a c = true :=
  DateTime.leb_trans h2 h1

theorem postDescLe_total (a b : Post) :
    (postDescLe a b || postDescLe b a) = true :=
  DateTime.leb_total b.datetime a.datetime

/-! ## Claim C3 -/

/-- C3: after a successful `load`, the post collection is a permutation of
the loaded posts, sorted non-increasing by datetime, and posts with equal
datetime keep their encounter order (the sort is stable: filtering either
list to any fixed datetime gives the same sequence). -/
theorem load_posts_sorted_stable (blog blog' : Mdblog) (files : List FileEntry)
    (ps : List Post) (hps : parseAll files = .ok ps)
    (hld : blog.load files = (blog', none)) :
    blog'.posts.Perm ps ∧
      blog'.posts.Pairwise
        (fun a b => DateTime.leb b.datetime a.datetime = true) ∧
      ∀ d : DateTime,
        blog'.posts.filter (fun p => decide (p.datetime = d)) =
          ps.filter (fun p => decide (p.datetime = d)) := by
  rw [load_of_parse_ok hps] at hld
  injection hld with h1 h2
  rw [← h1]
  refine ⟨sortLe_perm _ _, sortLe_pairwise postDescLe_trans postDescLe_total ps, ?_⟩
  intro d
  apply sortLe_filter
  intro a b ha hb
  have ha' : a.datetime = d := of_decide_eq_true ha
  have hb' : b.datetime = d := of_decide_eq_true hb
  unfold postDescLe
  rw [ha', hb']
  exact DateTime.leb_refl d

/-- The parsed forms of the sample files. -/
def helloPost : Post :=
  { path := "posts/hello.md", title := "hello",
    datetime := ⟨2020, 1, 1, 10, 0, 0⟩, tags := ["intro"], hidden := false,
    content := "Hello" }

def mathPost : Post :=
  { path := "posts/math.md", title := "math",
    datetime := ⟨2020, 2, 1, 10, 0, 0⟩, tags := ["math", "intro"],
    hidden := false, content := "Math" }

def secretPost : Post :=
  { path := "posts/secret.md", title := "secret",
    datetime := ⟨2020, 3, 1, 10, 0, 0⟩, tags := ["intro"], hidden := true,
    content := "Secret" }

/-- The blog state after loading the spec's end-to-end scenario. -/
def sampleLoadedBlog : Mdblog :=
  { sampleBlog with
    posts := [mathPost, helloPost],
    tags := [("intro", [mathPost, helloPost]), ("math", [mathPost])] }

/-- Witness for C3 on the spec's end-to-end scenario: `hello` (2020-01-01)
and `math` (2020-02-01) load as `[math, hello]`. -/
theorem load_posts_sorted_stable_witness :
    (parseAll [helloFile, mathFile] = .ok [helloPost, mathPost] ∧
      sampleBlog.load [helloFile, mathFile] = (sampleLoadedBlog, none)) ∧
      (sampleLoadedBlog.posts.Perm [helloPost, mathPost] ∧
        sampleLoadedBlog.posts.Pairwise
          (fun a b => DateTime.leb b.datetime a.datetime = true) ∧
        ∀ d : DateTime,
          sampleLoadedBlog.posts.filter (fun p => decide (p.datetime = d)) =
            [helloPost, mathPost].filter (fun p => decide (p.datetime = d))) :=
  ⟨⟨by rfl, by rfl⟩,
    load_posts_sorted_stable sampleBlog sampleLoadedBlog [helloFile, mathFile]
      [helloPost, mathPost] (by rfl) (by rfl)⟩

/-! ## Claim C2 -/

/-- C2: after a successful `load`, for every tag `t` in the tag index and
every post `p` of the post collection, `p` occurs in the sequence for `t`
exactly once if `p` is non-hidden and its tag list contains `t`, and zero
times otherwise; each per-tag sequence is sorted non-increasing by
datetime; and every tag present in the index has at least one non-hidden
post in its sequence. -/
theorem load_tag_index_invariants (blog blog' : Mdblog)
    (files : List FileEntry) (ps : List Post)
    (hps : parseAll files = .ok ps) (hld : blog.load files = (blog', none))
    (hnd : (files.map FileEntry.relPath).Nodup) :
    ∀ t l, (t, l) ∈ blog'.tags →
      (∀ p ∈ blog'.posts,
        l.count p = if !p.is_hidden && p.tags.contains t then 1 else 0) ∧
      l.Pairwise (fun a b => DateTime.leb b.datetime a.datetime = true) ∧
      ∃ p ∈ l, p.is_hidden = false := by
  rw [load_of_parse_ok hps] at hld
  injection hld with h1 h2
  rw [← h1]
  have hSKb : SortedKeys (buildTagsFrom ([] : Tags) ps) :=
    sortedKeys_buildTagsFrom (by simp [SortedKeys])
  have hSK : SortedKeys (sortTagsValues (buildTagsFrom [] ps)) :=
    sortedKeys_sortTagsValues hSKb
  have hpnodup : ps.Nodup := by
    apply List.Nodup.of_map Post.path
    rw [parseAll_map_path hps]
    exact hnd
  have htnodup := parseAll_tags_nodup hps
  intro t l hmem
  have hlk : lookupTag t (sortTagsValues (buildTagsFrom [] ps)) = some l :=
    (mem_iff_lookupTag hSK).mp hmem
  rw [lookupTag_sortTagsValues,
    lookupTag_buildTagsFrom htnodup (by simp [SortedKeys])] at hlk
  by_cases hfe :
      (ps.filter (fun p => !p.is_hidden && p.tags.contains t)).isEmpty = true
  · rw [if_pos hfe] at hlk
    simp [lookupTag] at hlk
  · rw [if_neg hfe] at hlk
    simp only [lookupTag, Option.getD_none, List.nil_append,
      Option.map_some'] at hlk
    injection hlk with hl
    rw [← hl]
    refine ⟨?_, sortLe_pairwise postDescLe_trans postDescLe_total _, ?_⟩
    · intro p hp
      have hp' : p ∈ ps := (sortLe_perm postDescLe ps).mem_iff.mp hp
      rw [(sortPostsDesc_perm _).count_eq p]
      by_cases hpred : (!p.is_hidden && p.tags.contains t) = true
      · rw [if_pos hpred]
        exact List.count_eq_one_of_mem (hpnodup.filter _)
          (List.mem_filter.mpr ⟨hp', hpred⟩)
      · rw [if_neg hpred]
        exact List.count_eq_zero_of_not_mem
          (fun hmemF => hpred (List.mem_filter.mp hmemF).2)
    · have hFne : ps.filter (fun p => !p.is_hidden && p.tags.contains t) ≠ [] :=
        fun h => hfe (by rw [h]; rfl)
      obtain ⟨p, hpF⟩ := List.exists_mem_of_ne_nil _ hFne
      refine ⟨p, (sortLe_perm _ _).mem_iff.mpr hpF, ?_⟩
      have hpred := (List.mem_filter.mp hpF).2
      simp only [Bool.and_eq_true, Bool.not_eq_true'] at hpred
      exact hpred.1

/-- The blog state after loading the scenario extended with a hidden post
(`secret`, 2020-03-01): the hidden post joins the collection but not the
index. -/
def sampleLoadedBlog2 : Mdblog :=
  { sampleBlog with
    posts := [secretPost, mathPost, helloPost],
    tags := [("intro", [mathPost, helloPost]), ("math", [mathPost])] }

/-- Witness for C2: the end-to-end scenario plus a hidden post. -/
theorem load_tag_index_invariants_witness :
    (parseAll [helloFile, mathFile, secretFile] =
        .ok [helloPost, mathPost, secretPost] ∧
      sampleBlog.load [helloFile, mathFile, secretFile] =
        (sampleLoadedBlog2, none) ∧
      ([helloFile, mathFile, secretFile].map FileEntry.relPath).Nodup) ∧
      ∀ t l, (t, l) ∈ sampleLoadedBlog2.tags →
        (∀ p ∈ sampleLoadedBlog2.posts,
          l.count p = if !p.is_hidden && p.tags.contains t then 1 else 0) ∧
        l.Pairwise (fun a b => DateTime.leb b.datetime a.datetime = true) ∧
        ∃ p ∈ l, p.is_hidden = false :=
  ⟨⟨by rfl, by rfl, by decide⟩,
    load_tag_index_invariants sampleBlog sampleLoadedBlog2
      [helloFile, mathFile, secretFile] [helloPost, mathPost, secretPost]
      (by rfl) (by rfl) (by decide)⟩

/-! ## Claim C4 -/

/-- After a successful load, every tag of a non-hidden loaded post is
present in the index. -/
theorem loaded_tags_complete {ps : List Post}
    (htnodup : ∀ p ∈ ps, p.tags.Nodup) {p : Post} (hp : p ∈ ps)
    (hh : p.is_hidden = false) {t : String} (ht : t ∈ p.tags) :
    (lookupTag t (sortTagsValues (buildTagsFrom [] ps))).isSome = true := by
  rw [lookupTag_sortTagsValues,
    lookupTag_buildTagsFrom htnodup (by simp [SortedKeys])]
  have hpF : p ∈ ps.filter (fun q => !q.is_hidden && q.tags.contains t) :=
    List.mem_filter.mpr ⟨hp, by simp [hh, ht]⟩
  have hne :
      ¬ (ps.filter (fun q => !q.is_hidden && q.tags.contains t)).isEmpty = true := by
    intro he
    rw [List.isEmpty_iff.mp he] at hpF
    exact absurd hpF (List.not_mem_nil p)
  rw [if_neg hne]
  rfl

theorem resolvePostTags_isSome {tags : Tags} {L : List String}
    (h : ∀ t ∈ L, (lookupTag t tags).isSome = true) :
    ∃ ms, resolvePostTags tags L = some ms := by
  induction L with
  | nil => exact ⟨[], rfl⟩
  | cons t L ih =>
    have ht := h t (List.mem_cons_self _ _)
    obtain ⟨l, hl⟩ := Option.isSome_iff_exists.mp ht
    obtain ⟨ms, hms⟩ := ih (fun x hx => h x (List.mem_cons_of_mem _ hx))
    refine ⟨tag_map t l :: ms, ?_⟩
    simp only [resolvePostTags, hl, hms, Option.map_some']

/-- `render_post` succeeds on every post whose tags are all indexed (and on
every hidden post). -/
theorem render_post_isSome {b : Mdblog} {p : Post}
    (h : p.is_hidden = false → ∀ t ∈ p.tags, (lookupTag t b.tags).isSome = true) :
    ∃ html, b.render_post p = some html := by
  unfold Mdblog.render_post Mdblog.render_post_context
  cases hh : p.is_hidden with
  | true => exact ⟨_, rfl⟩
  | false =>
    obtain ⟨ms, hms⟩ := resolvePostTags_isSome (h hh)
    rw [Bool.not_false, if_pos rfl, hms]
    exact ⟨_, rfl⟩

theorem mapM_pages {α γ : Type} (f : α → Option (String × γ)) (g : α → String)
    (l : List α) (h : ∀ a ∈ l, ∃ c, f a = some (g a, c)) :
    ∃ pages, l.mapM f = some pages ∧ pages.map Prod.fst = l.map g := by
  induction l with
  | nil => exact ⟨[], rfl, rfl⟩
  | cons a l ih =>
    obtain ⟨c, hc⟩ := h a (List.mem_cons_self _ _)
    obtain ⟨pages, hp, hmap⟩ := ih (fun x hx => h x (List.mem_cons_of_mem _ hx))
    refine ⟨(g a, c) :: pages, ?_, ?_⟩
    · rw [List.mapM_cons, hc, hp]
      rfl
    · simp [hmap]

/-- The index page's rendering context carries the `posts` maps. -/
theorem ctxGet_render_index (b : Mdblog) :
    ctxGet "posts" b.render_index_context =
      some (.maps (Mdblog.get_posts_maps b.posts)) := by
  simp [Mdblog.render_index_context, Mdblog.get_base_context, ctxAdd, ctxGet,
    List.find?]

/-- C4: after a successful load, hidden posts are absent from the tag index
and from the post list supplied to the index page's rendering context,
while `export_posts` still renders and writes one page for every post,
hidden ones included. -/
theorem hidden_posts_handling (blog blog' : Mdblog) (files : List FileEntry)
    (ps : List Post) (hps : parseAll files = .ok ps)
    (hld : blog.load files = (blog', none)) :
    (∀ t l, (t, l) ∈ blog'.tags → ∀ p ∈ l, p.is_hidden = false) ∧
      (ctxGet "posts" blog'.render_index_context =
          some (.maps (Mdblog.get_posts_maps blog'.posts)) ∧
        ∀ m, m ∈ Mdblog.get_posts_maps blog'.posts ↔
          ∃ p ∈ blog'.posts, p.is_hidden = false ∧ m = Post.map p) ∧
      ∃ pages, blog'.export_posts = some pages ∧
        pages.map Prod.fst =
          blog'.posts.map (fun p => joinPath blog'.get_build_dir p.dest) := by
  rw [load_of_parse_ok hps] at hld
  injection hld with h1 h2
  rw [← h1]
  have htnodup := parseAll_tags_nodup hps
  have hSK : SortedKeys (sortTagsValues (buildTagsFrom [] ps)) :=
    sortedKeys_sortTagsValues (sortedKeys_buildTagsFrom (by simp [SortedKeys]))
  refine ⟨?_, ⟨ctxGet_render_index _, ?_⟩, ?_⟩
  · intro t l hmem p hp
    have hlk := (mem_iff_lookupTag hSK).mp hmem
    rw [lookupTag_sortTagsValues,
      lookupTag_buildTagsFrom htnodup (by simp [SortedKeys])] at hlk
    by_cases hfe :
        (ps.filter (fun p => !p.is_hidden && p.tags.contains t)).isEmpty = true
    · rw [if_pos hfe] at hlk
      simp [lookupTag] at hlk
    · rw [if_neg hfe] at hlk
      simp only [lookupTag, Option.getD_none, List.nil_append,
        Option.map_some'] at hlk
      injection hlk with hl
      rw [← hl] at hp
      have hpF := (sortPostsDesc_perm _).mem_iff.mp hp
      have hpred := (List.mem_filter.mp hpF).2
      simp only [Bool.and_eq_true, Bool.not_eq_true'] at hpred
      exact hpred.1
  · intro m
    simp only [Mdblog.get_posts_maps, List.mem_map, List.mem_filter,
      Bool.not_eq_true']
    constructor
    · rintro ⟨p, ⟨hp, hh⟩, rfl⟩
      exact ⟨p, hp, hh, rfl⟩
    · rintro ⟨p, hp, hh, rfl⟩
      exact ⟨p, ⟨hp, hh⟩, rfl⟩
  · apply mapM_pages
    intro p hp
    have hpmem : p ∈ ps := (sortPostsDesc_perm _).mem_iff.mp hp
    obtain ⟨html, hhtml⟩ := render_post_isSome
      (b := { blog with posts := sortPostsDesc ps, tags := sortTagsValues (buildTagsFrom [] ps) })
      (p := p)
      (fun hh t ht => loaded_tags_complete htnodup hpmem hh ht)
    exact ⟨html, by rw [hhtml]; rfl⟩

/-- Witness for C4 on the scenario with a hidden post. -/
theorem hidden_posts_handling_witness :
    (parseAll [helloFile, mathFile, secretFile] =
        .ok [helloPost, mathPost, secretPost] ∧
      sampleBlog.load [helloFile, mathFile, secretFile] =
        (sampleLoadedBlog2, none)) ∧
      ((∀ t l, (t, l) ∈ sampleLoadedBlog2.tags →
          ∀ p ∈ l, p.is_hidden = false) ∧
        (ctxGet "posts" sampleLoadedBlog2.render_index_context =
            some (.maps (Mdblog.get_posts_maps sampleLoadedBlog2.posts)) ∧
          ∀ m, m ∈ Mdblog.get_posts_maps sampleLoadedBlog2.posts ↔
            ∃ p ∈ sampleLoadedBlog2.posts,
              p.is_hidden = false ∧ m = Post.map p) ∧
        ∃ pages, sampleLoadedBlog2.export_posts = some pages ∧
          pages.map Prod.fst =
            sampleLoadedBlog2.posts.map
              (fun p => joinPath sampleLoadedBlog2.get_build_dir p.dest)) :=
  ⟨⟨by rfl, by rfl⟩,
    hidden_posts_handling sampleBlog sampleLoadedBlog2
      [helloFile, mathFile, secretFile] [helloPost, mathPost, secretPost]
      (by rfl) (by rfl)⟩

end Mdblog
